import Mathlib

/-!
# Verification of the PGO benchmark pipeline (`src/val_bench.cpp`)

This file gives a shallow embedding of the benchmark's core components:
the rolling checksum, the worker write loop, the aggregator read loop,
the shared summary map together with its lock discipline, the round-robin
partitioning, and the serialization of the summary report.  Machine
integers are modelled as `Nat` with explicit reduction modulo `2 ^ 32`,
and `char` values are modelled with the sign extension performed by the
C++ integral promotions on a platform with signed `char`.
-/

/-- `2 ^ 32`, the modulus of `uint32_t` arithmetic. -/
def UINT32_MOD : Nat := 4294967296

/-- Configuration constant `NUM_WORKER_CHILDREN` from the source. -/
def NUM_WORKER_CHILDREN : Nat := 5

/-- Configuration constant `NUM_AGGREGATOR_THREADS` from the source. -/
def NUM_AGGREGATOR_THREADS : Nat := 3

/-- Configuration constant `BUFFER_SIZE` from the source. -/
def BUFFER_SIZE : Nat := 1024

/-- Configuration constant `WRITES_PER_WORKER` from the source. -/
def WRITES_PER_WORKER : Nat := 50

/-- Configuration constant `FILE_PREFIX` from the source. -/
def FILE_PREFIX : String := "/tmp/pgo_benchmark_"

/-- `EXIT_SUCCESS`. -/
def EXIT_SUCCESS : Nat := 0

/-- `EXIT_FAILURE`. -/
def EXIT_FAILURE : Nat := 1

/-- The value contributed by a stored byte when a `char` is added to a
`uint32_t`: the byte is stored through `static_cast<char>` (truncation to
8 bits), and the signed `char` is sign-extended by the integral promotion
before being converted to `uint32_t`.  A byte `b < 128` contributes `b`;
a byte `b ≥ 128` contributes `b - 256 + 2 ^ 32`. -/
def byteToUInt (b : Nat) : Nat :=
  if b % 256 < 128 then b % 256 else b % 256 + 4294967040

/-- One iteration of the loop body of `calculate_checksum`:
`checksum = (checksum << 5) + checksum + buffer[i];` in `uint32_t`
arithmetic, with `buffer[i]` a (signed) `char`. -/
def checksum_step (checksum b : Nat) : Nat :=
  ((checksum <<< 5) % UINT32_MOD + checksum + byteToUInt b) % UINT32_MOD

/-- `calculate_checksum` from the source: the left-to-right fold of
`checksum_step` over the buffer, starting from `0`. -/
def calculate_checksum (buffer : List Nat) : Nat :=
  buffer.foldl checksum_step 0

/-- Modelled from the spec: the checksum update as the claim words it,
`checksum' = checksum * 33 + byte` with the byte value taken in the
range `[0, 255]`, wrapping modulo `2 ^ 32`.  Used only to compare the
claimed definition against `calculate_checksum`. -/
def claimed_checksum (buffer : List Nat) : Nat :=
  buffer.foldl (fun checksum b => (checksum * 33 + b) % UINT32_MOD) 0

/-- One planned iteration of the worker write loop: the pseudo-random
contents of the data buffer for that iteration, and the number of bytes
the `write` call reports as written. -/
structure WriteStep where
  data : List Nat
  written : Nat

/-- The worker's write loop (`for (int i = 0; i < WRITES_PER_WORKER; ++i)`):
each iteration writes the buffer (the file receives the bytes the `write`
call reports, i.e. `written` of them); if `bytes_written != BUFFER_SIZE`
the loop `break`s (third component `true`), otherwise the block's checksum
is folded into the running total with a wrapping `uint32_t` addition.
Returns `(total_checksum, file contents, write-failure flag)`. -/
def worker_write_loop : List WriteStep → Nat → List Nat → Nat × List Nat × Bool
  | [], acc, file => (acc, file, false)
  | s :: rest, acc, file =>
    if s.written = BUFFER_SIZE then
      worker_write_loop rest ((acc + calculate_checksum s.data) % UINT32_MOD)
        (file ++ s.data.take s.written)
    else (acc, file ++ s.data.take s.written, true)

/-- The externally observable outcome of `run_worker_process`. -/
structure WorkerResult where
  exitCode : Nat
  artifact : Option (List Nat)
  total_checksum : Nat
  writeFailed : Bool

/-- `run_worker_process` from the source, as a function of the open
outcome and the planned write iterations: on open failure the worker
calls `exit(EXIT_FAILURE)` with no artifact; otherwise it runs the write
loop, closes the file and calls `exit(EXIT_SUCCESS)` unconditionally. -/
def run_worker_process (openOk : Bool) (steps : List WriteStep) : WorkerResult :=
  if openOk then
    let r := worker_write_loop steps 0 []
    ⟨EXIT_SUCCESS, some r.2.1, r.1, r.2.2⟩
  else ⟨EXIT_FAILURE, none, 0, false⟩

/-- The leak-branch selector computed in `main`: `i % 2 != 0`. -/
def should_leak (worker_id : Nat) : Bool := worker_id % 2 != 0

/-- The string literal copied by `strcpy` on the leaking branch. -/
def leak_message : String := "This is a deliberate memory leak."

/-- The size of the deliberately leaked allocation:
`malloc(128 * worker_id + 64)`. -/
def leak_alloc_size (worker_id : Nat) : Nat := 128 * worker_id + 64

/-- The number of bytes `strcpy` writes for a given source string:
its length plus the terminating NUL. -/
def strcpy_bytes (s : String) : Nat := s.length + 1

/-- The aggregator's read loop
`while (infile.read(read_buffer, BUFFER_SIZE)) { ... }`, modelled with an
explicit fuel so that the definition is structurally recursive (one unit
of fuel per loop iteration; the wrapper below supplies `data.length`,
which dominates the iteration count).  While at least `BUFFER_SIZE` bytes
remain the read succeeds in full and the chunk's checksum is folded into
the accumulator with a wrapping `uint32_t` addition; otherwise the read
fails and the loop exits, leaving the bytes delivered by the final failed
read (`gcount` of them) as the second component. -/
def readLoopFuel : Nat → List Nat → Nat → Nat × List Nat
  | 0, data, acc => (acc, data)
  | fuel + 1, data, acc =>
    if BUFFER_SIZE ≤ data.length then
      readLoopFuel fuel (data.drop BUFFER_SIZE)
        ((acc + calculate_checksum (data.take BUFFER_SIZE)) % UINT32_MOD)
    else (acc, data)

/-- The aggregator's read loop on `data`, starting from accumulator `acc`:
returns the accumulator after the loop and the bytes of the final failed
read. -/
def readLoop (data : List Nat) (acc : Nat) : Nat × List Nat :=
  readLoopFuel data.length data acc

/-- The per-artifact checksum computed by `aggregate_files_task`: the read
loop followed by `if (infile.gcount() > 0)` folding the final partial
chunk. -/
def aggregate_checksum (data : List Nat) : Nat :=
  let r := readLoop data 0
  if 0 < r.2.length then (r.1 + calculate_checksum r.2) % UINT32_MOD else r.1

/-- The combination rule the read loop applies to per-chunk checksums
(`file_checksum += calculate_checksum(...)`, a wrapping `uint32_t` sum),
generalized to an arbitrary list of chunks; the worker's
`total_checksum += calculate_checksum(...)` is the same rule. -/
def chunkCombine (chunks : List (List Nat)) : Nat :=
  chunks.foldl (fun acc c => (acc + calculate_checksum c) % UINT32_MOD) 0

/-- The chunk decomposition performed by the read loop: the sequence of
`gcount`-byte chunks the reads deliver (full `BUFFER_SIZE` chunks, then
the final partial chunk if non-empty).  Fuel as in `readLoopFuel`. -/
def toChunksFuel : Nat → List Nat → List (List Nat)
  | 0, data => if data.isEmpty then [] else [data]
  | fuel + 1, data =>
    if BUFFER_SIZE ≤ data.length then
      data.take BUFFER_SIZE :: toChunksFuel fuel (data.drop BUFFER_SIZE)
    else if data.isEmpty then [] else [data]

/-- The chunk decomposition of `data` performed by the read loop. -/
def toChunks (data : List Nat) : List (List Nat) :=
  toChunksFuel data.length data

/-- `summary[filename] = file_checksum` on the `std::map`: insertion into
a strictly key-sorted association list, overwriting an existing entry with
the same key. -/
def mapInsert : List (String × Nat) → String → Nat → List (String × Nat)
  | [], k, v => [(k, v)]
  | (k', v') :: rest, k, v =>
    if k < k' then (k, v) :: (k', v') :: rest
    else if k = k' then (k, v) :: rest
    else (k', v') :: mapInsert rest k v

/-- `aggregate_files_task` from the source, as a function of the
filesystem contents `fs` (`none` models an artifact whose open fails):
for each assigned file, an open failure is logged and skipped; otherwise
the per-artifact checksum is computed by the read loop and the entry is
inserted into the shared summary under the lock. -/
def aggregate_files_task (fs : String → Option (List Nat)) (files : List String)
    (summary : List (String × Nat)) : List (String × Nat) :=
  files.foldl (fun s f =>
    match fs f with
    | none => s
    | some data => mapInsert s f (aggregate_checksum data)) summary

/-- The insert operations a task emits for its assigned files: one
`(filename, recomputed checksum)` per successfully opened artifact, in
assignment order; artifacts whose open fails emit nothing. -/
def successOps (fs : String → Option (List Nat)) (files : List String) :
    List (String × Nat) :=
  files.filterMap (fun f => (fs f).map (fun data => (f, aggregate_checksum data)))

/-- Applying a sequence of atomic map inserts to the shared summary.  The
lock makes each insert atomic, so a concurrent execution of the
aggregator threads is exactly an application of some interleaving
(permutation respecting per-thread order) of the threads' insert
sequences. -/
def applyOps (ops : List (String × Nat)) (summary : List (String × Nat)) :
    List (String × Nat) :=
  ops.foldl (fun s p => mapInsert s p.1 p.2) summary

/-- The name of worker `i`'s artifact: `FILE_PREFIX + i + ".dat"`. -/
def worker_file (i : Nat) : String := FILE_PREFIX ++ toString i ++ ".dat"

/-- The expected artifact list built by `run_aggregator_process`. -/
def worker_files : List String :=
  (List.range NUM_WORKER_CHILDREN).map worker_file

/-- The round-robin distribution loop of `run_aggregator_process`:
`work_chunks[i % NUM_AGGREGATOR_THREADS].push_back(worker_files[i])`,
starting from `t` empty chunks. -/
def distribute (files : List String) (t : Nat) : List (List String) :=
  files.enum.foldl
    (fun chunks p => chunks.set (p.1 % t) (chunks.getD (p.1 % t) [] ++ [p.2]))
    (List.replicate t [])

/-- The serialization of the summary report performed by
`run_aggregator_process`: one header line, then one line per entry in the
`std::map`'s iteration (sorted-by-key) order. -/
def serialize_summary (summary : List (String × Nat)) : List String :=
  "--- PGO Benchmark Summary Report ---" ::
    summary.map (fun p => "File: " ++ p.1 ++ ", Checksum: " ++ toString p.2)

/-- The atomic actions an aggregator thread performs, used to model the
scope of the `std::lock_guard` in `aggregate_files_task`. -/
inductive AggAction where
  | openArtifact : String → Bool → AggAction
  | readCall : String → AggAction
  | logOpenFail : String → AggAction
  | lockAcquire : AggAction
  | insertEntry : String → Nat → AggAction
  | logProcessed : String → Nat → AggAction
  | lockRelease : AggAction
deriving DecidableEq

/-- Whether an action performs I/O: opening and reading the artifact, and
the diagnostic prints to `std::cerr`/`std::cout`, are I/O; the map insert
and the lock operations are not. -/
def isIOAction : AggAction → Bool
  | .openArtifact _ _ => true
  | .readCall _ => true
  | .logOpenFail _ => true
  | .logProcessed _ _ => true
  | _ => false

/-- The action sequence one loop iteration of `aggregate_files_task`
performs for artifact `f`: on open failure, the failed open and the
`std::cerr` log; on success, the open, the reads (`len / BUFFER_SIZE`
successful ones and the final failed one), then the `std::lock_guard`
acquisition, the map insert, the `std::cout` diagnostic, and the lock
release at the end of the iteration (the guard's destructor). -/
def fileTrace (fs : String → Option (List Nat)) (f : String) : List AggAction :=
  match fs f with
  | none => [AggAction.openArtifact f false, AggAction.logOpenFail f]
  | some data =>
    AggAction.openArtifact f true ::
      (List.replicate (data.length / BUFFER_SIZE + 1) (AggAction.readCall f) ++
        [AggAction.lockAcquire, AggAction.insertEntry f (aggregate_checksum data),
          AggAction.logProcessed f (aggregate_checksum data), AggAction.lockRelease])

/-- The whole action sequence of one `aggregate_files_task` call. -/
def taskTrace (fs : String → Option (List Nat)) (files : List String) :
    List AggAction :=
  (files.map (fileTrace fs)).flatten

/-- The actions performed while the lock is held (`held` is the lock state
on entry): the critical sections' contents, lock operations excluded. -/
def underLock : List AggAction → Bool → List AggAction
  | [], _ => []
  | a :: rest, held =>
    match a with
    | .lockAcquire => underLock rest true
    | .lockRelease => underLock rest false
    | _ => (if held then [a] else []) ++ underLock rest held

/-- The lock state after running a list of actions from state `held`. -/
def heldAfter : List AggAction → Bool → Bool
  | [], held => held
  | a :: rest, held =>
    match a with
    | .lockAcquire => heldAfter rest true
    | .lockRelease => heldAfter rest false
    | _ => heldAfter rest held

/-- A block of `BUFFER_SIZE` identical bytes, used by witnesses. -/
def one_block : List Nat := List.replicate BUFFER_SIZE 7

/-- A full fault-free worker write schedule, used by witnesses. -/
def witness_steps : List WriteStep :=
  List.replicate WRITES_PER_WORKER ⟨List.replicate BUFFER_SIZE 0, BUFFER_SIZE⟩

/-- A filesystem on which only worker 0's artifact opens, used by
witnesses. -/
def fsW : String → Option (List Nat) :=
  fun f => if f = worker_file 0 then some [1, 2] else none

/-- A filesystem on which only worker 1's artifact opens, used by
witnesses. -/
def fsW8 : String → Option (List Nat) :=
  fun f => if f = worker_file 1 then some [3] else none

/-- A filesystem on which every open succeeds with an empty artifact,
used by witnesses. -/
def fsAll : String → Option (List Nat) := fun _ => some []

/-- A one-character artifact name used by witnesses. -/
def fileA : String := "a"

-- ### Theorems

/-- **C3, counterexample.**  The claim states that the checksum folds the
raw byte values taken in `[0, 255]`.  On the single-byte block `[255]`
(all bytes in range) the code produces `2 ^ 32 - 1` — the byte is stored
in a signed `char` and sign-extended — while the claimed fold produces
`255`. -/
theorem C3_counterexample :
    (∀ b ∈ [255], b < 256) ∧ calculate_checksum [255] ≠ claimed_checksum [255] := by
  decide

/-- **C3, amended.**  For every byte block, `calculate_checksum` returns
the left-to-right fold of `checksum' = checksum * 33 + c` over the block,
wrapping modulo `2 ^ 32`, where the contribution `c` of a byte is its
value interpreted as a sign-extended signed `char` (`b` for `b < 128`,
`b - 256 + 2 ^ 32` for `128 ≤ b < 256`), not the raw value in `[0, 255]`;
in particular `(checksum << 5) + checksum` coincides with
`checksum * 33`. -/
theorem C3_checksum_signed_fold (buffer : List Nat) :
    calculate_checksum buffer =
      buffer.foldl (fun checksum b => (checksum * 33 + byteToUInt b) % UINT32_MOD) 0 := by
  have hstep : checksum_step =
      fun checksum b => (checksum * 33 + byteToUInt b) % UINT32_MOD := by
    funext cs b
    show ((cs <<< 5) % UINT32_MOD + cs + byteToUInt b) % UINT32_MOD = _
    rw [Nat.shiftLeft_eq]
    show (cs * 32 % UINT32_MOD + cs + byteToUInt b) % UINT32_MOD = _
    have h32 : cs * 33 = cs * 32 + cs := by ring
    rw [h32]
    simp only [UINT32_MOD]
    omega
  rw [calculate_checksum, hstep]

/-- **C2, counterexample.**  The claim states that a short write after a
successful open makes the worker terminate with a failure status.  With a
successful open and a first `write` reporting `512 < BUFFER_SIZE` bytes,
the worker records the write failure yet exits with `EXIT_SUCCESS`:
the loop `break`s and control falls through to `exit(EXIT_SUCCESS)`. -/
theorem C2_counterexample :
    (run_worker_process true [⟨List.replicate BUFFER_SIZE 0, 512⟩]).writeFailed = true ∧
      (run_worker_process true [⟨List.replicate BUFFER_SIZE 0, 512⟩]).exitCode = EXIT_SUCCESS := by
  constructor <;> decide

/-- **C2, amended.**  The worker's exit status is a failure exactly when
the open fails; a write failure aborts the loop early (the partial
artifact is kept) but the worker still terminates with a success
status. -/
theorem C2_exit_status (openOk : Bool) (steps : List WriteStep) :
    (run_worker_process openOk steps).exitCode =
      if openOk then EXIT_SUCCESS else EXIT_FAILURE := by
  cases openOk <;> simp [run_worker_process]

/-- **C2, amended, witness.**  Instantiated at a successful open with a
short first write. -/
theorem C2_exit_status_witness :
    (run_worker_process true [⟨List.replicate BUFFER_SIZE 0, 512⟩]).exitCode =
      if true then EXIT_SUCCESS else EXIT_FAILURE :=
  C2_exit_status true [⟨List.replicate BUFFER_SIZE 0, 512⟩]

/-- **C10.**  For every worker whose should-leak flag is true (every odd
ordinal, hence ordinal at least 1), the leaked allocation of
`128 * worker_id + 64` bytes is at least 192 bytes, which strictly
exceeds the 34 bytes (terminator included) that `strcpy` copies from the
string literal, so the copy stays within the allocation. -/
theorem C10_leak_buffer_safe (worker_id : Nat) (h : should_leak worker_id = true) :
    1 ≤ worker_id ∧ 192 ≤ leak_alloc_size worker_id ∧
      strcpy_bytes leak_message = 34 ∧
      strcpy_bytes leak_message < leak_alloc_size worker_id := by
  have hodd : worker_id % 2 ≠ 0 := by
    simpa [should_leak] using h
  have h1 : 1 ≤ worker_id := by omega
  have hlen : strcpy_bytes leak_message = 34 := by decide
  refine ⟨h1, ?_, hlen, ?_⟩
  · show 192 ≤ 128 * worker_id + 64
    omega
  · show strcpy_bytes leak_message < 128 * worker_id + 64
    omega

/-- **C10, witness.**  Instantiated at the smallest leaking ordinal,
`worker_id = 1`. -/
theorem C10_leak_buffer_safe_witness :
    should_leak 1 = true ∧
      (1 ≤ 1 ∧ 192 ≤ leak_alloc_size 1 ∧ strcpy_bytes leak_message = 34 ∧
        strcpy_bytes leak_message < leak_alloc_size 1) :=
  ⟨by decide, C10_leak_buffer_safe 1 (by decide)⟩

theorem readLoopFuel_nil (fuel acc : Nat) : readLoopFuel fuel [] acc = (acc, []) := by
  cases fuel <;> simp [readLoopFuel, BUFFER_SIZE]

theorem readLoopFuel_congr : ∀ (fuel : Nat) (data : List Nat) (acc fuel' : Nat),
    data.length ≤ fuel → data.length ≤ fuel' →
    readLoopFuel fuel data acc = readLoopFuel fuel' data acc := by
  intro fuel
  induction fuel with
  | zero =>
    intro data acc fuel' h _
    have hd : data = [] := List.length_eq_zero.mp (Nat.le_zero.mp h)
    subst hd
    rw [readLoopFuel_nil, readLoopFuel_nil]
  | succ f IH =>
    intro data acc fuel' h h'
    have hB : 0 < BUFFER_SIZE := by decide
    by_cases hb : BUFFER_SIZE ≤ data.length
    · cases fuel' with
      | zero => omega
      | succ g =>
        simp only [readLoopFuel, if_pos hb]
        apply IH
        · rw [List.length_drop]; omega
        · rw [List.length_drop]; omega
    · cases fuel' with
      | zero =>
        have hd : data = [] := List.length_eq_zero.mp (Nat.le_zero.mp h')
        subst hd
        rw [readLoopFuel_nil, readLoopFuel_nil]
      | succ g => simp only [readLoopFuel, if_neg hb]

theorem readLoop_block (b rest : List Nat) (acc : Nat) (hb : b.length = BUFFER_SIZE) :
    readLoop (b ++ rest) acc =
      readLoop rest ((acc + calculate_checksum b) % UINT32_MOD) := by
  have hB : 0 < BUFFER_SIZE := by decide
  have hlen : (b ++ rest).length = BUFFER_SIZE + rest.length := by
    simp [hb]
  rw [readLoop, readLoop, hlen]
  obtain ⟨m, hm⟩ : ∃ m, BUFFER_SIZE + rest.length = m + 1 :=
    ⟨BUFFER_SIZE + rest.length - 1, by omega⟩
  rw [hm]
  simp only [readLoopFuel]
  rw [if_pos (by rw [List.length_append, hb]; omega)]
  rw [List.take_left' hb, List.drop_left' hb]
  exact readLoopFuel_congr m rest _ rest.length (by omega) (Nat.le_refl _)

theorem readLoop_flatten_full : ∀ (chunks : List (List Nat)) (acc : Nat),
    (∀ c ∈ chunks, c.length = BUFFER_SIZE) →
    readLoop chunks.flatten acc =
      (chunks.foldl (fun a c => (a + calculate_checksum c) % UINT32_MOD) acc, []) := by
  intro chunks
  induction chunks with
  | nil =>
    intro acc _
    simp [readLoop, readLoopFuel]
  | cons b bs IH =>
    intro acc h
    have hb : b.length = BUFFER_SIZE := h b (List.mem_cons_self b bs)
    rw [List.flatten_cons, readLoop_block b bs.flatten acc hb,
      IH _ (fun c hc => h c (List.mem_cons_of_mem b hc))]
    simp

theorem aggregate_flatten_full (chunks : List (List Nat))
    (h : ∀ c ∈ chunks, c.length = BUFFER_SIZE) :
    aggregate_checksum chunks.flatten = chunkCombine chunks := by
  simp [aggregate_checksum, readLoop_flatten_full chunks 0 h, chunkCombine]

/-- **C1, counterexample.**  The claim states that for every split the
one-pass checksum of the whole block equals the aggregator's chunked
computation (a wrapping sum of per-chunk checksums).  For the block
`[1, 1]` split into `[[1], [1]]` the chunked computation yields `2` while
the one-pass fold yields `34`. -/
theorem C1_counterexample :
    ([[1], [1]] : List (List Nat)).flatten = [1, 1] ∧
      chunkCombine [[1], [1]] ≠ calculate_checksum [1, 1] := by
  decide

/-- **C1, amended.**  The aggregator's chunked computation does not agree
with the one-pass fold on every split; what holds is that the two
chunk-level accumulations agree whenever the chunk boundaries coincide:
for every list of `BUFFER_SIZE`-sized chunks, the worker-style combination
of per-chunk checksums (wrapping sum, as the read loop and the worker
loop both perform) equals the aggregator's read-loop computation on the
concatenation — so the worker's whole-block checksumming and the
aggregator's `BUFFER_SIZE`-chunks computation agree on identical
bytes. -/
theorem C1_chunked_agreement (chunks : List (List Nat))
    (h : ∀ c ∈ chunks, c.length = BUFFER_SIZE) :
    aggregate_checksum chunks.flatten = chunkCombine chunks :=
  aggregate_flatten_full chunks h

/-- **C1, amended, witness.**  Instantiated at two `BUFFER_SIZE`-byte
blocks. -/
theorem C1_chunked_agreement_witness :
    (∀ c ∈ [one_block, one_block], c.length = BUFFER_SIZE) ∧
      aggregate_checksum ([one_block, one_block] : List (List Nat)).flatten =
        chunkCombine [one_block, one_block] :=
  ⟨by simp [one_block], C1_chunked_agreement [one_block, one_block] (by simp [one_block])⟩

theorem worker_write_loop_success : ∀ (steps : List WriteStep) (acc : Nat) (file : List Nat),
    (∀ s ∈ steps, s.written = BUFFER_SIZE ∧ s.data.length = BUFFER_SIZE) →
    worker_write_loop steps acc file =
      (steps.foldl (fun a s => (a + calculate_checksum s.data) % UINT32_MOD) acc,
        file ++ (steps.map (fun s => s.data)).flatten, false) := by
  intro steps
  induction steps with
  | nil =>
    intro acc file _
    simp [worker_write_loop]
  | cons s rest IH =>
    intro acc file h
    obtain ⟨hw, hd⟩ := h s (List.mem_cons_self s rest)
    simp only [worker_write_loop, if_pos hw]
    rw [hw, ← hd, List.take_length]
    rw [IH _ _ (fun x hx => h x (List.mem_cons_of_mem s hx))]
    simp [List.append_assoc]

/-- **C4.**  For every worker run in which all `WRITES_PER_WORKER` writes
complete in full (each `write` reports `BUFFER_SIZE` bytes of a
`BUFFER_SIZE`-byte buffer), no write failure is recorded, and the
aggregator's recomputed checksum of the artifact's on-disk bytes equals
the worker's running total checksum. -/
theorem C4_worker_aggregator_roundtrip (steps : List WriteStep)
    (_hlen : steps.length = WRITES_PER_WORKER)
    (hok : ∀ s ∈ steps, s.written = BUFFER_SIZE ∧ s.data.length = BUFFER_SIZE) :
    (run_worker_process true steps).writeFailed = false ∧
      ∃ file, (run_worker_process true steps).artifact = some file ∧
        aggregate_checksum file = (run_worker_process true steps).total_checksum := by
  have hloop := worker_write_loop_success steps 0 [] hok
  have hchunks : ∀ c ∈ steps.map (fun s => s.data), c.length = BUFFER_SIZE := by
    intro c hc
    obtain ⟨s, hs, rfl⟩ := List.mem_map.mp hc
    exact (hok s hs).2
  refine ⟨by simp [run_worker_process, hloop], (steps.map (fun s => s.data)).flatten, ?_, ?_⟩
  · simp [run_worker_process, hloop]
  · rw [aggregate_flatten_full _ hchunks]
    simp [run_worker_process, hloop, chunkCombine, List.foldl_map]

/-- **C4, witness.**  Instantiated at a fault-free schedule of
`WRITES_PER_WORKER` all-zero blocks. -/
theorem C4_worker_aggregator_roundtrip_witness :
    witness_steps.length = WRITES_PER_WORKER ∧
      (∀ s ∈ witness_steps, s.written = BUFFER_SIZE ∧ s.data.length = BUFFER_SIZE) ∧
      ((run_worker_process true witness_steps).writeFailed = false ∧
        ∃ file, (run_worker_process true witness_steps).artifact = some file ∧
          aggregate_checksum file = (run_worker_process true witness_steps).total_checksum) :=
  ⟨by simp [witness_steps],
    by
      intro s hs
      have hs' : s = (⟨List.replicate BUFFER_SIZE 0, BUFFER_SIZE⟩ : WriteStep) :=
        List.eq_of_mem_replicate (by simpa [witness_steps] using hs)
      subst hs'
      exact ⟨rfl, by simp⟩,
    C4_worker_aggregator_roundtrip witness_steps (by simp [witness_steps])
      (by
        intro s hs
        have hs' : s = (⟨List.replicate BUFFER_SIZE 0, BUFFER_SIZE⟩ : WriteStep) :=
          List.eq_of_mem_replicate (by simpa [witness_steps] using hs)
        subst hs'
        exact ⟨rfl, by simp⟩)⟩

theorem readLoopFuel_rest : ∀ (fuel : Nat) (data : List Nat) (acc : Nat),
    data.length ≤ fuel →
    (readLoopFuel fuel data acc).2 =
      data.drop (data.length - data.length % BUFFER_SIZE) := by
  intro fuel
  induction fuel with
  | zero =>
    intro data acc h
    have hd : data = [] := List.length_eq_zero.mp (Nat.le_zero.mp h)
    subst hd
    simp [readLoopFuel]
  | succ f IH =>
    intro data acc h
    by_cases hb : BUFFER_SIZE ≤ data.length
    · simp only [readLoopFuel, if_pos hb]
      rw [IH _ _ (by rw [List.length_drop]; simp only [BUFFER_SIZE] at hb ⊢; omega)]
      rw [List.drop_drop]
      congr 1
      rw [List.length_drop]
      simp only [BUFFER_SIZE] at hb ⊢
      omega
    · simp only [readLoopFuel, if_neg hb]
      have hsmall : data.length % BUFFER_SIZE = data.length :=
        Nat.mod_eq_of_lt (by omega)
      simp [hsmall]

theorem readLoop_rest (data : List Nat) (acc : Nat) :
    (readLoop data acc).2 = data.drop (data.length - data.length % BUFFER_SIZE) :=
  readLoopFuel_rest data.length data acc (Nat.le_refl _)

theorem readLoop_rest_length (data : List Nat) (acc : Nat) :
    (readLoop data acc).2.length = data.length % BUFFER_SIZE := by
  rw [readLoop_rest, List.length_drop]
  have := Nat.mod_le data.length BUFFER_SIZE
  omega

theorem toChunksFuel_flatten : ∀ (fuel : Nat) (data : List Nat),
    data.length ≤ fuel → (toChunksFuel fuel data).flatten = data := by
  intro fuel
  induction fuel with
  | zero =>
    intro data h
    have hd : data = [] := List.length_eq_zero.mp (Nat.le_zero.mp h)
    subst hd
    simp [toChunksFuel]
  | succ f IH =>
    intro data h
    by_cases hb : BUFFER_SIZE ≤ data.length
    · simp only [toChunksFuel, if_pos hb, List.flatten_cons]
      rw [IH _ (by rw [List.length_drop]; simp only [BUFFER_SIZE] at hb ⊢; omega)]
      exact List.take_append_drop _ _
    · simp only [toChunksFuel, if_neg hb]
      by_cases he : data.isEmpty
      · have hd : data = [] := by simpa [List.isEmpty_iff] using he
        subst hd
        simp
      · simp [he]

theorem readLoopFuel_fold_chunks : ∀ (fuel : Nat) (data : List Nat) (acc : Nat),
    data.length ≤ fuel →
    (if 0 < (readLoopFuel fuel data acc).2.length then
        ((readLoopFuel fuel data acc).1 +
          calculate_checksum (readLoopFuel fuel data acc).2) % UINT32_MOD
      else (readLoopFuel fuel data acc).1) =
      (toChunksFuel fuel data).foldl
        (fun a c => (a + calculate_checksum c) % UINT32_MOD) acc := by
  intro fuel
  induction fuel with
  | zero =>
    intro data acc h
    have hd : data = [] := List.length_eq_zero.mp (Nat.le_zero.mp h)
    subst hd
    simp [readLoopFuel, toChunksFuel]
  | succ f IH =>
    intro data acc h
    by_cases hb : BUFFER_SIZE ≤ data.length
    · simp only [readLoopFuel, toChunksFuel, if_pos hb, List.foldl_cons]
      exact IH _ _ (by rw [List.length_drop]; simp only [BUFFER_SIZE] at hb ⊢; omega)
    · simp only [readLoopFuel, toChunksFuel, if_neg hb]
      by_cases he : data.isEmpty
      · have hd : data = [] := by simpa [List.isEmpty_iff] using he
        subst hd
        simp
      · have hlen : 0 < data.length := by
          cases data
          · simp at he
          · simp
        simp [he, hlen]

theorem aggregate_eq_chunkCombine (data : List Nat) :
    aggregate_checksum data = chunkCombine (toChunks data) := by
  have h := readLoopFuel_fold_chunks data.length data 0 (Nat.le_refl _)
  simpa [aggregate_checksum, readLoop, toChunks, chunkCombine] using h

/-- **C9.**  The aggregator's read loop folds every byte of the artifact
exactly once: the bytes left to the trailing partial-chunk branch are
exactly the final `size mod BUFFER_SIZE` bytes (in particular, when the
size is an exact multiple of `BUFFER_SIZE` the final failed read delivers
zero bytes and the trailing branch contributes nothing), the read loop's
chunk decomposition concatenates back to the artifact, and the computed
per-artifact checksum is the fold over exactly that decomposition. -/
theorem C9_read_loop_coverage (data : List Nat) :
    (readLoop data 0).2.length = data.length % BUFFER_SIZE ∧
      (readLoop data 0).2 = data.drop (data.length - data.length % BUFFER_SIZE) ∧
      (toChunks data).flatten = data ∧
      aggregate_checksum data = chunkCombine (toChunks data) :=
  ⟨readLoop_rest_length data 0, readLoop_rest data 0,
    toChunksFuel_flatten data.length data (Nat.le_refl _),
    aggregate_eq_chunkCombine data⟩

/-- **C6.**  The aggregator's distribution loop assigns the artifact at
list position `i` to thread `i mod NUM_AGGREGATOR_THREADS`; with the 5
expected worker artifacts and 3 threads, thread 0 receives artifacts 0
and 3, thread 1 receives 1 and 4, and thread 2 receives 2; the partitions
are pairwise disjoint and their union is exactly the full expected
artifact list, with no duplicates. -/
theorem C6_round_robin_partition :
    distribute worker_files NUM_AGGREGATOR_THREADS =
      [[worker_file 0, worker_file 3], [worker_file 1, worker_file 4], [worker_file 2]] ∧
      (List.range worker_files.length).all
        (fun i => ((distribute worker_files NUM_AGGREGATOR_THREADS).getD
          (i % NUM_AGGREGATOR_THREADS) []).contains (worker_files.getD i "")) = true ∧
      List.Pairwise (fun a b => ∀ x ∈ a, x ∉ b)
        (distribute worker_files NUM_AGGREGATOR_THREADS) ∧
      ((distribute worker_files NUM_AGGREGATOR_THREADS).flatten).Perm worker_files ∧
      ((distribute worker_files NUM_AGGREGATOR_THREADS).flatten).Nodup := by
  decide

theorem underLock_append : ∀ (xs ys : List AggAction) (held : Bool),
    underLock (xs ++ ys) held = underLock xs held ++ underLock ys (heldAfter xs held) := by
  intro xs
  induction xs with
  | nil => intro ys held; simp [underLock, heldAfter]
  | cons a xs IH =>
    intro ys held
    cases a <;> simp [underLock, heldAfter, IH, List.append_assoc]

theorem heldAfter_append : ∀ (xs ys : List AggAction) (held : Bool),
    heldAfter (xs ++ ys) held = heldAfter ys (heldAfter xs held) := by
  intro xs
  induction xs with
  | nil => intro ys held; simp [heldAfter]
  | cons a xs IH =>
    intro ys held
    cases a <;> simp [heldAfter, IH]

theorem heldAfter_replicate_read : ∀ (n : Nat) (f : String) (held : Bool),
    heldAfter (List.replicate n (AggAction.readCall f)) held = held := by
  intro n
  induction n with
  | zero => intro f held; simp [heldAfter]
  | succ m IH => intro f held; simp [List.replicate_succ, heldAfter, IH]

theorem underLock_replicate_read : ∀ (n : Nat) (f : String),
    underLock (List.replicate n (AggAction.readCall f)) false = [] := by
  intro n
  induction n with
  | zero => intro f; simp [underLock]
  | succ m IH => intro f; simp [List.replicate_succ, underLock, IH]

theorem fileTrace_heldAfter (fs : String → Option (List Nat)) (f : String) :
    heldAfter (fileTrace fs f) false = false := by
  cases h : fs f with
  | none => simp [fileTrace, h, heldAfter]
  | some data =>
    simp [fileTrace, h, heldAfter, heldAfter_append, heldAfter_replicate_read]

theorem fileTrace_underLock (fs : String → Option (List Nat)) (f : String) :
    ∀ a ∈ underLock (fileTrace fs f) false,
      (∃ g v, a = AggAction.insertEntry g v) ∨ ∃ g v, a = AggAction.logProcessed g v := by
  cases h : fs f with
  | none =>
    intro a ha
    simp [fileTrace, h, underLock] at ha
  | some data =>
    intro a ha
    simp [fileTrace, h, underLock, underLock_append, underLock_replicate_read,
      heldAfter_replicate_read, heldAfter] at ha
    rcases ha with ha | ha
    · exact Or.inl ⟨f, aggregate_checksum data, ha⟩
    · exact Or.inr ⟨f, aggregate_checksum data, ha⟩

/-- **C7, counterexample.**  The claim states that no I/O other than the
artifact read loop — in fact no I/O at all — happens inside the critical
section.  But the `std::lock_guard` lives to the end of the loop
iteration, so the `std::cout` diagnostic reporting the processed artifact
is executed while the lock is held, and it is an I/O action. -/
theorem C7_counterexample :
    AggAction.logProcessed fileA 0 ∈ underLock (taskTrace fsAll [fileA]) false ∧
      isIOAction (AggAction.logProcessed fileA 0) = true := by
  decide

/-- **C7, amended.**  In every aggregator thread task, the actions
performed while the exclusive lock is held are only the single map insert
and the per-artifact `std::cout` diagnostic that follows it; in
particular the artifact open, the read loop and the open-failure logging
never happen inside the critical section (the diagnostic print, an I/O
action, does — the guard is released only at the end of the loop
iteration). -/
theorem C7_lock_scope (fs : String → Option (List Nat)) (files : List String)
    (a : AggAction) (ha : a ∈ underLock (taskTrace fs files) false) :
    (∃ f v, a = AggAction.insertEntry f v) ∨ ∃ f v, a = AggAction.logProcessed f v := by
  induction files with
  | nil => simp [taskTrace, underLock] at ha
  | cons f t IH =>
    have htr : taskTrace fs (f :: t) = fileTrace fs f ++ taskTrace fs t := by
      simp [taskTrace]
    rw [htr, underLock_append, fileTrace_heldAfter] at ha
    rcases List.mem_append.mp ha with h1 | h2
    · exact fileTrace_underLock fs f a h1
    · exact IH h2

/-- **C7, amended, witness.**  Instantiated at the insert action of a
one-artifact task. -/
theorem C7_lock_scope_witness :
    AggAction.insertEntry fileA 0 ∈ underLock (taskTrace fsAll [fileA]) false ∧
      ((∃ f v, AggAction.insertEntry fileA 0 = AggAction.insertEntry f v) ∨
        ∃ f v, AggAction.insertEntry fileA 0 = AggAction.logProcessed f v) :=
  ⟨by decide, C7_lock_scope fsAll [fileA] (AggAction.insertEntry fileA 0) (by decide)⟩

theorem mapInsert_cons_self (k : String) (v v' : Nat) (rest : List (String × Nat)) :
    mapInsert ((k, v') :: rest) k v = (k, v) :: rest := by
  simp only [mapInsert]
  rw [if_neg (lt_irrefl k)]
  simp

theorem mapInsert_mem_elim : ∀ (m : List (String × Nat)) (k : String) (v : Nat)
    (p : String × Nat), p ∈ mapInsert m k v → p = (k, v) ∨ p ∈ m := by
  intro m k v
  induction m with
  | nil =>
    intro p hp
    simp [mapInsert] at hp
    exact Or.inl hp
  | cons a rest IH =>
    obtain ⟨k', v'⟩ := a
    intro p hp
    by_cases h1 : k < k'
    · simp only [mapInsert, if_pos h1] at hp
      rcases List.mem_cons.mp hp with h | h
      · exact Or.inl h
      · exact Or.inr h
    · by_cases h2 : k = k'
      · simp only [mapInsert, if_neg h1, if_pos h2] at hp
        rcases List.mem_cons.mp hp with h | h
        · exact Or.inl h
        · exact Or.inr (List.mem_cons_of_mem _ h)
      · simp only [mapInsert, if_neg h1, if_neg h2] at hp
        rcases List.mem_cons.mp hp with h | h
        · exact Or.inr (h ▸ List.mem_cons_self _ _)
        · rcases IH p h with h' | h'
          · exact Or.inl h'
          · exact Or.inr (List.mem_cons_of_mem _ h')

theorem mapInsert_self_mem : ∀ (m : List (String × Nat)) (k : String) (v : Nat),
    (k, v) ∈ mapInsert m k v := by
  intro m k v
  induction m with
  | nil => simp [mapInsert]
  | cons a rest IH =>
    obtain ⟨k', v'⟩ := a
    by_cases h1 : k < k'
    · simp only [mapInsert]
      rw [if_pos h1]
      exact List.mem_cons_self _ _
    · by_cases h2 : k = k'
      · simp only [mapInsert]
        rw [if_neg h1, if_pos h2]
        exact List.mem_cons_self _ _
      · simp only [mapInsert, if_neg h1, if_neg h2]
        exact List.mem_cons_of_mem _ IH

theorem mapInsert_pairwise : ∀ (m : List (String × Nat)) (k : String) (v : Nat),
    m.Pairwise (fun a b => a.1 < b.1) →
    (mapInsert m k v).Pairwise (fun a b => a.1 < b.1) := by
  intro m k v
  induction m with
  | nil =>
    intro _
    simp [mapInsert]
  | cons a rest IH =>
    obtain ⟨k', v'⟩ := a
    intro hm
    rw [List.pairwise_cons] at hm
    obtain ⟨hhead, htail⟩ := hm
    by_cases h1 : k < k'
    · simp only [mapInsert, if_pos h1]
      rw [List.pairwise_cons]
      refine ⟨?_, ?_⟩
      · intro p hp
        rcases List.mem_cons.mp hp with h | h
        · rw [h]
          exact h1
        · exact lt_trans h1 (hhead p h)
      · rw [List.pairwise_cons]
        exact ⟨hhead, htail⟩
    · by_cases h2 : k = k'
      · subst h2
        rw [mapInsert_cons_self, List.pairwise_cons]
        exact ⟨hhead, htail⟩
      · have h3 : k' < k := ((lt_trichotomy k k').resolve_left h1).resolve_left h2
        simp only [mapInsert, if_neg h1, if_neg h2]
        rw [List.pairwise_cons]
        refine ⟨?_, IH htail⟩
        intro p hp
        rcases mapInsert_mem_elim rest k v p hp with h | h
        · rw [h]
          exact h3
        · exact hhead p h

theorem mapInsert_mem_iff : ∀ (m : List (String × Nat)) (k : String) (v : Nat)
    (p : String × Nat), m.Pairwise (fun a b => a.1 < b.1) →
    (p ∈ mapInsert m k v ↔ p = (k, v) ∨ (p ∈ m ∧ p.1 ≠ k)) := by
  intro m k v
  induction m with
  | nil =>
    intro p _
    simp [mapInsert]
  | cons a rest IH =>
    obtain ⟨k', v'⟩ := a
    intro p hm
    rw [List.pairwise_cons] at hm
    obtain ⟨hhead, htail⟩ := hm
    by_cases h1 : k < k'
    · simp only [mapInsert, if_pos h1]
      constructor
      · intro hp
        rcases List.mem_cons.mp hp with h | h
        · exact Or.inl h
        · refine Or.inr ⟨h, ?_⟩
          rcases List.mem_cons.mp h with h' | h'
          · rw [h']
            exact ne_of_gt h1
          · exact ne_of_gt (lt_trans h1 (hhead p h'))
      · rintro (h | ⟨h, _⟩)
        · exact h ▸ List.mem_cons_self _ _
        · exact List.mem_cons_of_mem _ h
    · by_cases h2 : k = k'
      · subst h2
        rw [mapInsert_cons_self]
        constructor
        · intro hp
          rcases List.mem_cons.mp hp with h | h
          · exact Or.inl h
          · exact Or.inr ⟨List.mem_cons_of_mem _ h, ne_of_gt (hhead p h)⟩
        · rintro (h | ⟨h, hne⟩)
          · exact h ▸ List.mem_cons_self _ _
          · rcases List.mem_cons.mp h with h' | h'
            · exact absurd (by rw [h']) hne
            · exact List.mem_cons_of_mem _ h'
      · have h3 : k' < k := ((lt_trichotomy k k').resolve_left h1).resolve_left h2
        simp only [mapInsert, if_neg h1, if_neg h2]
        constructor
        · intro hp
          rcases List.mem_cons.mp hp with h | h
          · refine Or.inr ⟨h ▸ List.mem_cons_self _ _, ?_⟩
            rw [h]
            exact ne_of_lt h3
          · rcases (IH p htail).mp h with h' | ⟨hmem, hne⟩
            · exact Or.inl h'
            · exact Or.inr ⟨List.mem_cons_of_mem _ hmem, hne⟩
        · rintro (h | ⟨hmem, hne⟩)
          · exact h ▸ List.mem_cons_of_mem _ (mapInsert_self_mem rest k v)
          · rcases List.mem_cons.mp hmem with h' | h'
            · exact h' ▸ List.mem_cons_self _ _
            · exact List.mem_cons_of_mem _ ((IH p htail).mpr (Or.inr ⟨h', hne⟩))

theorem mapInsert_keys_elim (m : List (String × Nat)) (k : String) (v : Nat)
    (q : String) (hq : q ∈ (mapInsert m k v).map Prod.fst) :
    q = k ∨ q ∈ m.map Prod.fst := by
  rcases List.mem_map.mp hq with ⟨p, hp, rfl⟩
  rcases mapInsert_mem_elim m k v p hp with h | h
  · exact Or.inl (by rw [h])
  · exact Or.inr (List.mem_map_of_mem _ h)

theorem applyOps_pairwise : ∀ (ops : List (String × Nat)) (m : List (String × Nat)),
    m.Pairwise (fun a b => a.1 < b.1) →
    (applyOps ops m).Pairwise (fun a b => a.1 < b.1) := by
  intro ops
  induction ops with
  | nil => intro m hm; exact hm
  | cons p ops IH => intro m hm; exact IH _ (mapInsert_pairwise m p.1 p.2 hm)

theorem applyOps_mem_iff : ∀ (ops : List (String × Nat)) (m : List (String × Nat))
    (p : String × Nat),
    m.Pairwise (fun a b => a.1 < b.1) →
    (ops.map Prod.fst).Nodup →
    (∀ q ∈ ops.map Prod.fst, q ∉ m.map Prod.fst) →
    (p ∈ applyOps ops m ↔ p ∈ ops ∨ p ∈ m) := by
  intro ops
  induction ops with
  | nil =>
    intro m p _ _ _
    simp [applyOps]
  | cons a ops IH =>
    intro m p hm hnd hdis
    rw [List.map_cons, List.nodup_cons] at hnd
    obtain ⟨hak, hnd'⟩ := hnd
    have hm' := mapInsert_pairwise m a.1 a.2 hm
    have hka : a.1 ∉ m.map Prod.fst := by
      apply hdis
      rw [List.map_cons]
      exact List.mem_cons_self _ _
    have hdis' : ∀ q ∈ ops.map Prod.fst, q ∉ (mapInsert m a.1 a.2).map Prod.fst := by
      intro q hq hqm
      rcases mapInsert_keys_elim m a.1 a.2 q hqm with h | h
      · exact hak (h ▸ hq)
      · exact hdis q (by rw [List.map_cons]; exact List.mem_cons_of_mem _ hq) h
    have hmem := IH (mapInsert m a.1 a.2) p hm' hnd' hdis'
    have hstep : applyOps (a :: ops) m = applyOps ops (mapInsert m a.1 a.2) := rfl
    rw [hstep, hmem, mapInsert_mem_iff m a.1 a.2 p hm]
    constructor
    · rintro (h | h | ⟨h, _⟩)
      · exact Or.inl (List.mem_cons_of_mem _ h)
      · exact Or.inl (by rw [h]; exact List.mem_cons_self _ _)
      · exact Or.inr h
    · rintro (h | h)
      · rcases List.mem_cons.mp h with h' | h'
        · exact Or.inr (Or.inl (h'.trans rfl))
        · exact Or.inl h'
      · refine Or.inr (Or.inr ⟨h, ?_⟩)
        intro hpk
        exact hka (hpk ▸ List.mem_map_of_mem _ h)

theorem pairwise_countP_key : ∀ (l : List (String × Nat)),
    l.Pairwise (fun a b => a.1 < b.1) →
    ∀ p ∈ l, l.countP (fun q => q.1 == p.1) = 1 := by
  intro l
  induction l with
  | nil =>
    intro _ p hp
    simp at hp
  | cons a t IH =>
    intro hl p hp
    rw [List.pairwise_cons] at hl
    obtain ⟨hhead, htail⟩ := hl
    rw [List.countP_cons]
    rcases List.mem_cons.mp hp with h | h
    · subst h
      have hzero : t.countP (fun q => q.1 == p.1) = 0 := by
        rw [List.countP_eq_zero]
        intro q hq
        simp only [beq_iff_eq]
        exact ne_of_gt (hhead q hq)
      rw [hzero]
      simp
    · rw [IH htail p h]
      have hne : (a.1 == p.1) = false := by
        simp only [beq_eq_false_iff_ne]
        exact ne_of_lt (hhead p h)
      rw [hne]
      simp

theorem successOps_keys (fs : String → Option (List Nat)) (files : List String) :
    (successOps fs files).map Prod.fst = files.filter (fun f => (fs f).isSome) := by
  induction files with
  | nil => rfl
  | cons f t IH =>
    cases h : fs f with
    | none =>
      simp only [successOps] at IH ⊢
      simp [List.filterMap_cons, h, List.filter_cons, IH]
    | some d =>
      simp only [successOps] at IH ⊢
      simp [List.filterMap_cons, h, List.filter_cons, IH]

theorem successOps_mem_iff (fs : String → Option (List Nat)) (files : List String)
    (p : String × Nat) :
    p ∈ successOps fs files ↔
      p.1 ∈ files ∧ ∃ d, fs p.1 = some d ∧ p.2 = aggregate_checksum d := by
  constructor
  · intro hp
    rcases List.mem_filterMap.mp hp with ⟨f, hf, hsome⟩
    rcases Option.map_eq_some'.mp hsome with ⟨d, hd, hpd⟩
    subst hpd
    exact ⟨hf, d, hd, rfl⟩
  · rintro ⟨hf, d, hd, hv⟩
    apply List.mem_filterMap.mpr
    refine ⟨p.1, hf, ?_⟩
    rw [hd]
    simp only [Option.map_some']
    rw [← hv]

theorem worker_files_nodup : worker_files.Nodup := by decide

theorem report_mem_successOps (fs : String → Option (List Nat)) (ops : List (String × Nat))
    (hperm : ops.Perm (successOps fs worker_files)) :
    ∀ p, p ∈ applyOps ops [] ↔ p ∈ successOps fs worker_files := by
  have hndS : ((successOps fs worker_files).map Prod.fst).Nodup := by
    rw [successOps_keys fs worker_files]
    exact worker_files_nodup.filter _
  have hndOps : (ops.map Prod.fst).Nodup := (hperm.map Prod.fst).nodup_iff.mpr hndS
  intro p
  rw [applyOps_mem_iff ops [] p List.Pairwise.nil hndOps (by simp)]
  simp [hperm.mem_iff]

theorem readLoopFuel_fst_lt : ∀ (fuel : Nat) (data : List Nat) (acc : Nat),
    acc < UINT32_MOD → (readLoopFuel fuel data acc).1 < UINT32_MOD := by
  intro fuel
  induction fuel with
  | zero => intro data acc h; exact h
  | succ f IH =>
    intro data acc h
    by_cases hb : BUFFER_SIZE ≤ data.length
    · simp only [readLoopFuel, if_pos hb]
      exact IH _ _ (Nat.mod_lt _ (by decide))
    · simp only [readLoopFuel, if_neg hb]
      exact h

theorem aggregate_checksum_lt (data : List Nat) : aggregate_checksum data < UINT32_MOD := by
  simp only [aggregate_checksum]
  split
  · exact Nat.mod_lt _ (by decide)
  · exact readLoopFuel_fst_lt data.length data 0 (by decide)

theorem aggregate_files_task_eq : ∀ (fs : String → Option (List Nat)) (files : List String)
    (summary : List (String × Nat)),
    aggregate_files_task fs files summary = applyOps (successOps fs files) summary := by
  intro fs files
  induction files with
  | nil => intro summary; rfl
  | cons f t IH =>
    intro summary
    cases h : fs f with
    | none =>
      simp only [aggregate_files_task, successOps, applyOps, List.foldl_cons,
        List.filterMap_cons, h] at IH ⊢
      exact IH summary
    | some d =>
      simp only [aggregate_files_task, successOps, applyOps, List.foldl_cons,
        List.filterMap_cons, h, Option.map_some'] at IH ⊢
      exact IH (mapInsert summary f (aggregate_checksum d))

/-- **C5.**  After all aggregator threads have finished — i.e. after any
interleaving (modelled as any permutation) of the threads' atomic insert
operations has been applied to the initially empty shared report — the
report contains exactly one entry, keyed by artifact name and valued with
the recomputed checksum, for each expected worker artifact whose open
succeeded; no entry of any kind exists for an artifact whose open failed;
every entry comes from a successfully opened expected artifact; and the
task's fold is exactly the application of its per-file insert
operations (an open failure neither touches the report nor disturbs the
remaining artifacts). -/
theorem C5_report_contents (fs : String → Option (List Nat)) (ops : List (String × Nat))
    (hperm : ops.Perm (successOps fs worker_files)) :
    (∀ f data, f ∈ worker_files → fs f = some data →
        (f, aggregate_checksum data) ∈ applyOps ops [] ∧
          (applyOps ops []).countP (fun q => q.1 == f) = 1) ∧
      (∀ f, f ∈ worker_files → fs f = none → ∀ p ∈ applyOps ops [], p.1 ≠ f) ∧
      (∀ p ∈ applyOps ops [], p.1 ∈ worker_files ∧
        ∃ data, fs p.1 = some data ∧ p.2 = aggregate_checksum data) ∧
      aggregate_files_task fs worker_files [] = applyOps (successOps fs worker_files) [] := by
  have hmem := report_mem_successOps fs ops hperm
  have hpw : (applyOps ops []).Pairwise (fun a b => a.1 < b.1) :=
    applyOps_pairwise ops [] List.Pairwise.nil
  refine ⟨?_, ?_, ?_, aggregate_files_task_eq fs worker_files []⟩
  · intro f data hf hd
    have hin : (f, aggregate_checksum data) ∈ applyOps ops [] := by
      rw [hmem]
      exact (successOps_mem_iff fs worker_files (f, aggregate_checksum data)).mpr
        ⟨hf, data, hd, rfl⟩
    exact ⟨hin, pairwise_countP_key _ hpw _ hin⟩
  · intro f _ hnone p hp hpf
    rcases (successOps_mem_iff fs worker_files p).mp ((hmem p).mp hp) with ⟨_, d, hd, _⟩
    rw [hpf, hnone] at hd
    exact Option.noConfusion hd
  · intro p hp
    exact (successOps_mem_iff fs worker_files p).mp ((hmem p).mp hp)

/-- **C5, witness.**  Instantiated at a filesystem where only worker 0's
artifact opens, with the identity interleaving. -/
theorem C5_report_contents_witness :
    (successOps fsW worker_files).Perm (successOps fsW worker_files) ∧
      ((∀ f data, f ∈ worker_files → fsW f = some data →
          (f, aggregate_checksum data) ∈ applyOps (successOps fsW worker_files) [] ∧
            (applyOps (successOps fsW worker_files) []).countP (fun q => q.1 == f) = 1) ∧
        (∀ f, f ∈ worker_files → fsW f = none →
          ∀ p ∈ applyOps (successOps fsW worker_files) [], p.1 ≠ f) ∧
        (∀ p ∈ applyOps (successOps fsW worker_files) [], p.1 ∈ worker_files ∧
          ∃ data, fsW p.1 = some data ∧ p.2 = aggregate_checksum data) ∧
        aggregate_files_task fsW worker_files [] =
          applyOps (successOps fsW worker_files) []) :=
  ⟨List.Perm.refl _,
    C5_report_contents fsW (successOps fsW worker_files) (List.Perm.refl _)⟩

/-- **C8.**  The persisted summary artifact is exactly one header line
followed by one line per report entry, emitted in the report's order —
which is sorted by key, since every interleaving of the threads' inserts
leaves the `std::map` model strictly key-sorted — each line formatted as
`File: <name>, Checksum: <value>` with the value a 32-bit unsigned
recomputed checksum (strictly below `2 ^ 32`). -/
theorem C8_summary_serialization (fs : String → Option (List Nat)) (ops : List (String × Nat))
    (hperm : ops.Perm (successOps fs worker_files)) :
    serialize_summary (applyOps ops []) =
        "--- PGO Benchmark Summary Report ---" ::
          (applyOps ops []).map
            (fun p => "File: " ++ p.1 ++ ", Checksum: " ++ toString p.2) ∧
      (serialize_summary (applyOps ops [])).length = (applyOps ops []).length + 1 ∧
      (applyOps ops []).Pairwise (fun a b => a.1 < b.1) ∧
      ∀ p ∈ applyOps ops [], p.2 < UINT32_MOD := by
  refine ⟨rfl, by simp [serialize_summary], applyOps_pairwise ops [] List.Pairwise.nil, ?_⟩
  intro p hp
  rcases (successOps_mem_iff fs worker_files p).mp
    ((report_mem_successOps fs ops hperm p).mp hp) with ⟨_, d, _, hv⟩
  rw [hv]
  exact aggregate_checksum_lt d

/-- **C8, witness.**  Instantiated at a filesystem where only worker 1's
artifact opens, with the identity interleaving. -/
theorem C8_summary_serialization_witness :
    (successOps fsW8 worker_files).Perm (successOps fsW8 worker_files) ∧
      (serialize_summary (applyOps (successOps fsW8 worker_files) []) =
          "--- PGO Benchmark Summary Report ---" ::
            (applyOps (successOps fsW8 worker_files) []).map
              (fun p => "File: " ++ p.1 ++ ", Checksum: " ++ toString p.2) ∧
        (serialize_summary (applyOps (successOps fsW8 worker_files) [])).length =
          (applyOps (successOps fsW8 worker_files) []).length + 1 ∧
        (applyOps (successOps fsW8 worker_files) []).Pairwise (fun a b => a.1 < b.1) ∧
        ∀ p ∈ applyOps (successOps fsW8 worker_files) [], p.2 < UINT32_MOD) :=
  ⟨List.Perm.refl _,
    C8_summary_serialization fsW8 (successOps fsW8 worker_files) (List.Perm.refl _)⟩
